import Mathlib

/-!
Verification of the Chimera Engine (RH_chimera_engine.py).

This file gives a shallow embedding of the mathematical core of the engine:
the character factory (primitive-root search, discrete-log table, character
table, parity), the chimera constructor (parity buckets and the functional
equation shift), the zero hunter (per-sample failure handling and root
acceptance), and the line projector (sampling grid, crossing detection and
interpolation, classification).

Numbers that the source handles as arbitrary-precision complex floats are
modelled as exact real and complex numbers.  The Dirichlet L-series
evaluator and the complex root finder are external trusted primitives in
the source; where a claim concerns the control flow around them they are
modelled as oracle functions returning an Option, with failure (a raised
exception) modelled as none.
-/

/-- One step of the repeated multiplication the source uses: starting from
1, multiply by g and reduce mod p at every step, so after i iterations the
accumulator holds g^i mod p. -/
def powmod (g p : ℕ) : ℕ → ℕ
  | 0 => 1
  | i + 1 => (powmod g p i * g) % p

/-- Size of the set of values seen while iterating val = (val * g) % p
for p-1 steps, as in get_primitive_root. -/
def seen_count (p g : ℕ) : ℕ :=
  (((List.range (p - 1)).map (fun i => powmod g p (i + 1))).toFinset).card

/-- get_primitive_root from the source: 1 for p = 2, otherwise the first
g in [2, p) whose p-1 successive powers mod p take p-1 distinct values,
and 1 if no such g exists. -/
def get_primitive_root (p : ℕ) : ℕ :=
  if p = 2 then 1
  else
    match (List.range' 2 (p - 2)).find? (fun g => seen_count p g == p - 1) with
    | some g => g
    | none => 1

/-- The discrete-log dictionary after the loop in generate_char_table:
the entry for n is the largest i in [1, m] with g^i mod p = n (a later
iteration overwrites an earlier one), none if no such i exists. -/
def indLoop (p g : ℕ) : ℕ → ℕ → Option ℕ
  | 0, _ => none
  | i + 1, n => if powmod g p (i + 1) = n then some (i + 1) else indLoop p g i n

/-- The finished discrete-log table of generate_char_table: the loop runs
i = 1 .. p-1 and afterwards the entry of 1 is overwritten with 0. -/
def dlog (p g n : ℕ) : Option ℕ :=
  if n = 1 then some 0 else indLoop p g (p - 1) n

/-- Entry of the character table at residue n: 0 at n = 0, the unit-circle
value exp((2 pi i k / (p-1)) * ind(n)) when the discrete log of n is
recorded, and 0 otherwise (the silent branch of the source). -/
noncomputable def char_entry (p k n : ℕ) : ℂ :=
  if n = 0 then 0
  else
    match dlog p (get_primitive_root p) n with
    | some j => Complex.exp (2 * (Real.pi : ℂ) * Complex.I * k / ((p - 1 : ℕ) : ℂ) * j)
    | none => 0

/-- generate_char_table from the source: the table of length p whose n-th
entry is char_entry p k n. -/
noncomputable def generate_char_table (p k : ℕ) : List ℂ :=
  (List.range p).map (char_entry p k)

/-- check_parity from the source: looks at the last entry of the table
(table[-1], the value at p-1) and returns 1 if its real part is positive,
-1 otherwise. -/
noncomputable def check_parity (table : List ℂ) : ℤ :=
  if 0 < (table.getLastD 0).re then 1 else -1

/-- The synthetic zeta object: modulus, the two character indices and
tables, the identifier string, and the functional-equation shift. -/
structure SyntheticZeta where
  q : ℕ
  idx_a : ℕ
  idx_b : ℕ
  table_a : List ℂ
  table_b : List ℂ
  id_str : String
  a : ℕ

/-- SyntheticZeta.__init__ from the source: the shift a is 0 when
check_parity of table_a is 1 (even) and 1 otherwise (odd); only table_a
is inspected, matching parity being enforced by the generator. -/
noncomputable def mkSyntheticZeta (modulus idx_a : ℕ) (table_a : List ℂ)
    (idx_b : ℕ) (table_b : List ℂ) : SyntheticZeta :=
  { q := modulus
    idx_a := idx_a
    idx_b := idx_b
    table_a := table_a
    table_b := table_b
    id_str := "Q" ++ toString modulus ++ ".k" ++ toString idx_a ++ "+k" ++ toString idx_b
    a := if check_parity table_a = 1 then 0 else 1 }

/-- The list of character indices get_random_chimera iterates over for a
modulus q: range(1, q), that is 1, 2, ..., q-1. -/
def chimera_index_range (q : ℕ) : List ℕ :=
  List.range' 1 (q - 1)

/-- The even-parity bucket of get_random_chimera: the indices k whose
character table has check_parity 1. -/
noncomputable def evens_bucket (q : ℕ) : List ℕ :=
  (chimera_index_range q).filter (fun k => decide (check_parity (generate_char_table q k) = 1))

/-- The odd-parity bucket of get_random_chimera: the indices k whose
character table does not have check_parity 1. -/
noncomputable def odds_bucket (q : ℕ) : List ℕ :=
  (chimera_index_range q).filter (fun k => decide (¬ check_parity (generate_char_table q k) = 1))

/-- The root acceptance test of run_survey: 0.52 < r < 0.98 and
abs(i) > 1.0, with r and i the real and imaginary part of the refined
root. -/
def accept_root (r i : ℝ) : Prop :=
  0.52 < r ∧ r < 0.98 ∧ 1.0 < |i|

open Classical in
/-- The hunting loop of run_survey over a list of probe heights.  mag t
models abs(subject.eval(drift + i t)) and refine t models
mpmath.findroot seeded there; none models a raised numerical exception,
which the source catches per sample.  The loop stops at the first
accepted refined root and otherwise moves to the next height. -/
noncomputable def hunt_loop (mag : ℝ → Option ℝ) (refine : ℝ → Option ℂ) :
    List ℝ → Option ℂ
  | [] => none
  | t :: rest =>
    match mag t with
    | none => hunt_loop mag refine rest
    | some v =>
      if v < 0.25 then
        match refine t with
        | none => hunt_loop mag refine rest
        | some root =>
          if accept_root root.re root.im then some root
          else hunt_loop mag refine rest
      else hunt_loop mag refine rest

/-- The projection sampling grid of run_survey: resolution heights
ti = (t_loc - window/2) + window * i / resolution for i = 0 .. resolution-1. -/
noncomputable def sample_heights (t_loc window : ℝ) (resolution : ℕ) : List ℝ :=
  (List.range resolution).map
    (fun i : ℕ => (t_loc - window / 2) + window * (i : ℝ) / (resolution : ℝ))

/-- The list zs of run_survey: the Z-analogue evaluated at every sampled
height, with the Z-analogue itself an external evaluation passed in as Z. -/
noncomputable def projection_samples (Z : ℝ → ℝ) (t_loc window : ℝ) (resolution : ℕ) : List ℝ :=
  (sample_heights t_loc window resolution).map Z

/-- The crossing detector of run_survey: for every adjacent pair of
samples with strictly negative product, record the linearly interpolated
height ts[k] + (abs zs[k] / (abs zs[k] + abs zs[k+1])) * (ts[k+1] - ts[k]). -/
noncomputable def ghost_crossings (ts zs : List ℝ) : List ℝ :=
  (List.range (zs.length - 1)).filterMap (fun k =>
    if zs.getD k 0 * zs.getD (k + 1) 0 < 0 then
      some (ts.getD k 0 +
        (|zs.getD k 0| / (|zs.getD k 0| + |zs.getD (k + 1) 0|)) *
          (ts.getD (k + 1) 0 - ts.getD k 0))
    else none)

/-- The classification of run_survey as a function of the crossing count:
0 is blindness, 1 displacement, 3 or more a cluster, otherwise (exactly 2)
a pairing, each label embedding the count the way the source formats it. -/
def classify_ghost_count (n : ℕ) : String :=
  if n = 0 then "CLASS 0: BLINDNESS"
  else if n = 1 then "CLASS I: DISPLACEMENT"
  else if 3 ≤ n then "CLASS " ++ toString n ++ ": CLUSTER"
  else "CLASS " ++ toString n ++ ": PAIRING"

/-! ## Generic list access helpers -/

lemma getD_map_range {α : Type*} (f : ℕ → α) (d : α) (m n : ℕ) (h : n < m) :
    ((List.range m).map f).getD n d = f n := by
  rw [List.getD_eq_getElem?_getD, List.getElem?_map, List.getElem?_range h]
  rfl

lemma filterMap_if_eq_map_filter {α β : Type*} (l : List α) (p : α → Prop)
    [DecidablePred p] (f : α → β) :
    (l.filterMap (fun x => if p x then some (f x) else none)) =
      (l.filter (fun x => decide (p x))).map f := by
  induction l with
  | nil => rfl
  | cons a l ih =>
    by_cases h : p a <;> simp [List.filterMap_cons, List.filter_cons, h, ih]

/-! ## Classification (Line Projector) -/

/-- Claim C3: the classifier label is a function of the crossing count n
alone: n = 0 gives the blindness class, n = 1 displacement, n = 2 pairing,
and every n of at least 3 a cluster label with the count embedded. -/
theorem C3_classification :
    classify_ghost_count 0 = "CLASS 0: BLINDNESS" ∧
    classify_ghost_count 1 = "CLASS I: DISPLACEMENT" ∧
    classify_ghost_count 2 = "CLASS 2: PAIRING" ∧
    ∀ n, 3 ≤ n → classify_ghost_count n = "CLASS " ++ toString n ++ ": CLUSTER" := by
  refine ⟨rfl, rfl, rfl, ?_⟩
  intro n hn
  unfold classify_ghost_count
  rw [if_neg (by omega), if_neg (by omega), if_pos hn]

/-- Witness for C3 at the concrete count 7. -/
theorem C3_classification_witness :
    classify_ghost_count 7 = "CLASS " ++ toString 7 ++ ": CLUSTER" :=
  C3_classification.2.2.2 7 (by norm_num)

/-! ## Zero Hunter: acceptance and failure handling -/

/-- Claim C2: a refined root is accepted exactly when its real part lies
strictly in (0.52, 0.98) and its imaginary part exceeds 1 in magnitude;
the boundary values 0.52, 0.98 and imaginary magnitude exactly 1 are
rejected, and the hunting loop stops with the root exactly on acceptance. -/
theorem C2_acceptance :
    (∀ r i : ℝ, accept_root r i ↔ (0.52 < r ∧ r < 0.98 ∧ 1 < |i|)) ∧
    (∀ i : ℝ, ¬ accept_root 0.52 i) ∧
    (∀ i : ℝ, ¬ accept_root 0.98 i) ∧
    (∀ r : ℝ, ¬ accept_root r 1) ∧
    (∀ r : ℝ, ¬ accept_root r (-1)) ∧
    (∀ (mag : ℝ → Option ℝ) (refine : ℝ → Option ℂ) (t : ℝ) (rest : List ℝ)
        (v : ℝ) (root : ℂ),
      mag t = some v → v < 0.25 → refine t = some root →
        (accept_root root.re root.im →
          hunt_loop mag refine (t :: rest) = some root) ∧
        (¬ accept_root root.re root.im →
          hunt_loop mag refine (t :: rest) = hunt_loop mag refine rest)) := by
  refine ⟨?_, ?_, ?_, ?_, ?_, ?_⟩
  · intro r i
    unfold accept_root
    norm_num
  · intro i h
    exact lt_irrefl _ h.1
  · intro i h
    exact lt_irrefl _ h.2.1
  · intro r h
    have := h.2.2
    rw [abs_one] at this
    norm_num at this
  · intro r h
    have := h.2.2
    rw [abs_neg, abs_one] at this
    norm_num at this
  · intro mag refine t rest v root hmag hv href
    constructor
    · intro hacc
      simp only [hunt_loop, hmag, href, if_pos hv, if_pos hacc]
    · intro hacc
      simp only [hunt_loop, hmag, href, if_pos hv, if_neg hacc]

/-- Witness for C2: a concrete accepted root stops the loop at once. -/
theorem C2_acceptance_witness :
    hunt_loop (fun _ => some 0) (fun _ => some ⟨0.6, 2⟩) [0] = some ⟨0.6, 2⟩ :=
  (C2_acceptance.2.2.2.2.2 (fun _ => some 0) (fun _ => some ⟨0.6, 2⟩) 0 [] 0
      ⟨0.6, 2⟩ rfl (by norm_num) rfl).1
    (by constructor
        · norm_num
        · constructor
          · norm_num
          · show (1.0 : ℝ) < |(2 : ℝ)|
            rw [abs_of_pos (by norm_num : (0:ℝ) < 2)]
            norm_num)

/-- Claim C9: a failed numerical evaluation at one sample height, in the
magnitude check or in the refinement, leaves the loop result identical to
the loop on the remaining heights, and a hunt all of whose samples fail
completes with no candidate rather than aborting. -/
theorem C9_failure_handling :
    ∀ (mag : ℝ → Option ℝ) (refine : ℝ → Option ℂ),
      (∀ t rest, mag t = none →
        hunt_loop mag refine (t :: rest) = hunt_loop mag refine rest) ∧
      (∀ t rest v, mag t = some v → v < 0.25 → refine t = none →
        hunt_loop mag refine (t :: rest) = hunt_loop mag refine rest) ∧
      (∀ ts, (∀ t ∈ ts, mag t = none) → hunt_loop mag refine ts = none) := by
  intro mag refine
  refine ⟨?_, ?_, ?_⟩
  · intro t rest h
    simp only [hunt_loop, h]
  · intro t rest v hmag hv href
    simp only [hunt_loop, hmag, href, if_pos hv]
  · intro ts h
    induction ts with
    | nil => rfl
    | cons t rest ih =>
      have ht : mag t = none := h t (List.mem_cons_self t rest)
      simp only [hunt_loop, ht]
      exact ih (fun u hu => h u (List.mem_cons_of_mem t hu))

/-- Witness for C9: a hunt whose every magnitude evaluation fails returns
no candidate. -/
theorem C9_failure_handling_witness :
    hunt_loop (fun _ => none) (fun _ => some 1) [0, 1] = none :=
  (C9_failure_handling (fun _ => none) (fun _ => some 1)).2.2 [0, 1]
    (fun _ _ => rfl)

/-! ## Line Projector: sampling grid -/

/-- Counterexample for C4: with t_loc = 0, window = 4, resolution = 300
the height t_loc - window/2 = -2 is sampled but its mirror image
t_loc + window/2 = 2 is not, so the sampled set is not symmetric about
t_loc and does not cover the closed interval up to t_loc + window/2. -/
theorem C4_counterexample :
    (-2 : ℝ) ∈ sample_heights 0 4 300 ∧ (2 : ℝ) ∉ sample_heights 0 4 300 := by
  constructor
  · unfold sample_heights
    rw [List.mem_map]
    refine ⟨0, List.mem_range.mpr (by norm_num), by norm_num⟩
  · intro h
    unfold sample_heights at h
    rw [List.mem_map] at h
    obtain ⟨i, hi, hf⟩ := h
    rw [List.mem_range] at hi
    have hc : (i : ℝ) < 300 := by exact_mod_cast hi
    have : (i : ℝ) = 300 := by linarith
    linarith

/-- Claim C4 as amended: the projector samples exactly resolution evenly
spaced heights with spacing window/resolution, the i-th height being
(t_loc - window/2) + window * i / resolution; the heights start at
t_loc - window/2 and all lie in the half-open window
[t_loc - window/2, t_loc + window/2), the top endpoint not being sampled. -/
theorem C4_amended (t_loc window : ℝ) (resolution : ℕ)
    (hw : 0 < window) (hr : 0 < resolution) :
    (sample_heights t_loc window resolution).length = resolution ∧
    (∀ i, i < resolution →
      (sample_heights t_loc window resolution).getD i 0 =
        (t_loc - window / 2) + window * i / resolution) ∧
    (∀ i, i + 1 < resolution →
      (sample_heights t_loc window resolution).getD (i + 1) 0 -
        (sample_heights t_loc window resolution).getD i 0 = window / resolution) ∧
    (∀ x ∈ sample_heights t_loc window resolution,
      t_loc - window / 2 ≤ x ∧ x < t_loc + window / 2) ∧
    (∀ Z : ℝ → ℝ, (projection_samples Z t_loc window resolution).length = resolution) := by
  have hrR : (0 : ℝ) < resolution := by exact_mod_cast hr
  refine ⟨?_, ?_, ?_, ?_, ?_⟩
  · simp [sample_heights]
  · intro i hi
    exact getD_map_range _ _ _ _ hi
  · intro i hi
    unfold sample_heights
    rw [getD_map_range _ _ _ _ hi, getD_map_range _ _ _ _ (by omega : i < resolution)]
    push_cast
    field_simp
    ring
  · intro x hx
    unfold sample_heights at hx
    rw [List.mem_map] at hx
    obtain ⟨i, hi, rfl⟩ := hx
    rw [List.mem_range] at hi
    have hiR : (i : ℝ) < resolution := by exact_mod_cast hi
    have h0 : (0 : ℝ) ≤ (i : ℝ) := Nat.cast_nonneg i
    constructor
    · have : 0 ≤ window * i / resolution := by positivity
      linarith
    · have : window * i / resolution < window := by
        rw [div_lt_iff₀ hrR]
        have := mul_lt_mul_of_pos_left hiR hw
        linarith
      linarith
  · intro Z
    simp [projection_samples, sample_heights]

/-- Witness for C4 at the default parameters. -/
theorem C4_amended_witness :
    (sample_heights 0 4 300).length = 300 :=
  (C4_amended 0 4 300 (by norm_num) (by norm_num)).1

/-! ## Line Projector: crossing detection -/

/-- Claim C8: the recorded crossings are exactly the adjacent sample pairs
with strictly negative product, each recorded at the single linearly
interpolated height weighted by the two sample magnitudes, and the ghost
count is the number of such pairs. -/
theorem C8_crossings (ts zs : List ℝ) :
    ghost_crossings ts zs =
      ((List.range (zs.length - 1)).filter
        (fun k => decide (zs.getD k 0 * zs.getD (k + 1) 0 < 0))).map
        (fun k => ts.getD k 0 +
          (|zs.getD k 0| / (|zs.getD k 0| + |zs.getD (k + 1) 0|)) *
            (ts.getD (k + 1) 0 - ts.getD k 0)) ∧
    (ghost_crossings ts zs).length =
      ((List.range (zs.length - 1)).filter
        (fun k => decide (zs.getD k 0 * zs.getD (k + 1) 0 < 0))).length := by
  have h1 : ghost_crossings ts zs =
      ((List.range (zs.length - 1)).filter
        (fun k => decide (zs.getD k 0 * zs.getD (k + 1) 0 < 0))).map
        (fun k => ts.getD k 0 +
          (|zs.getD k 0| / (|zs.getD k 0| + |zs.getD (k + 1) 0|)) *
            (ts.getD (k + 1) 0 - ts.getD k 0)) :=
    filterMap_if_eq_map_filter _ _ _
  refine ⟨h1, ?_⟩
  rw [h1, List.length_map]

/-! ## Character Factory: the modular power loop -/

lemma powmod_eq (g p : ℕ) (hp : 2 ≤ p) : ∀ i, powmod g p i = g ^ i % p := by
  intro i
  induction i with
  | zero =>
    simp only [powmod, pow_zero]
    exact (Nat.one_mod_eq_one.mpr (by omega)).symm
  | succ i ih =>
    simp only [powmod, ih, pow_succ]
    exact Nat.mod_mul_mod

/-- The list of values recorded by the power loop, the source of both the
seen set of get_primitive_root and the discrete-log dictionary keys. -/
def seen_list (p g : ℕ) : List ℕ :=
  (List.range (p - 1)).map (fun i => powmod g p (i + 1))

lemma seen_count_eq_card (p g : ℕ) : seen_count p g = (seen_list p g).toFinset.card := rfl

lemma seen_list_length (p g : ℕ) : (seen_list p g).length = p - 1 := by
  unfold seen_list
  rw [List.length_map, List.length_range]

lemma seen_list_nodup (p g : ℕ) (hc : seen_count p g = p - 1) :
    (seen_list p g).Nodup := by
  rw [seen_count_eq_card, List.card_toFinset] at hc
  have hsub := List.dedup_sublist (seen_list p g)
  have hlen : (seen_list p g).dedup.length = (seen_list p g).length := by
    rw [hc, seen_list_length]
  rw [← List.dedup_eq_self]
  exact hsub.eq_of_length hlen

lemma seen_list_inj (p g : ℕ) (hc : seen_count p g = p - 1) :
    ∀ i j, i < p - 1 → j < p - 1 →
      powmod g p (i + 1) = powmod g p (j + 1) → i = j := by
  intro i j hi hj heq
  have hnd := seen_list_nodup p g hc
  have hi' : i < (seen_list p g).length := by rw [seen_list_length]; exact hi
  have hj' : j < (seen_list p g).length := by rw [seen_list_length]; exact hj
  have hgi : (seen_list p g)[i] = powmod g p (i + 1) := by
    unfold seen_list
    rw [List.getElem_map, List.getElem_range]
  have hgj : (seen_list p g)[j] = powmod g p (j + 1) := by
    unfold seen_list
    rw [List.getElem_map, List.getElem_range]
  exact (@List.Nodup.getElem_inj_iff _ _ hnd i hi' j hj').mp (by rw [hgi, hgj, heq])

lemma seen_list_mem_Ico (p g : ℕ) (hp : p.Prime) (hg1 : 1 ≤ g) (hgp : g < p) :
    ∀ x ∈ seen_list p g, x ∈ Finset.Ico 1 p := by
  intro x hx
  unfold seen_list at hx
  rw [List.mem_map] at hx
  obtain ⟨i, _, rfl⟩ := hx
  rw [powmod_eq g p hp.two_le]
  have hpos : 0 < p := hp.pos
  have hmod : g ^ (i + 1) % p < p := Nat.mod_lt _ hpos
  have hnz : g ^ (i + 1) % p ≠ 0 := by
    intro h0
    have hdvd : p ∣ g ^ (i + 1) := Nat.dvd_iff_mod_eq_zero.mpr h0
    have : p ∣ g := hp.dvd_of_dvd_pow hdvd
    have := Nat.le_of_dvd (by omega) this
    omega
  rw [Finset.mem_Ico]
  omega

lemma seen_list_toFinset (p g : ℕ) (hp : p.Prime) (hg1 : 1 ≤ g) (hgp : g < p)
    (hc : seen_count p g = p - 1) :
    (seen_list p g).toFinset = Finset.Ico 1 p := by
  apply Finset.eq_of_subset_of_card_le
  · intro x hx
    rw [List.mem_toFinset] at hx
    exact seen_list_mem_Ico p g hp hg1 hgp x hx
  · rw [Nat.card_Ico, ← seen_count_eq_card, hc]

lemma seen_list_surj (p g : ℕ) (hp : p.Prime) (hg1 : 1 ≤ g) (hgp : g < p)
    (hc : seen_count p g = p - 1) :
    ∀ n, 1 ≤ n → n < p → ∃ i, i < p - 1 ∧ powmod g p (i + 1) = n := by
  intro n hn1 hnp
  have hmem : n ∈ (seen_list p g).toFinset := by
    rw [seen_list_toFinset p g hp hg1 hgp hc, Finset.mem_Ico]
    omega
  rw [List.mem_toFinset] at hmem
  unfold seen_list at hmem
  rw [List.mem_map] at hmem
  obtain ⟨i, hi, hfi⟩ := hmem
  rw [List.mem_range] at hi
  exact ⟨i, hi, hfi⟩

/-! ## Existence of a generator with full coverage -/

lemma powmod_val (p g : ℕ) (hp : p.Prime) : ∀ m,
    powmod g p (m + 1) = (((g : ZMod p) ^ (m + 1)).val) := by
  haveI : Fact p.Prime := ⟨hp⟩
  intro m
  rw [powmod_eq g p hp.two_le, ← Nat.cast_pow, ZMod.val_natCast]

lemma exists_seen_full (p : ℕ) (hp : p.Prime) (h2 : 2 < p) :
    ∃ g, 2 ≤ g ∧ g < p ∧ seen_count p g = p - 1 := by
  haveI : Fact p.Prime := ⟨hp⟩
  obtain ⟨z, hz⟩ := @IsCyclic.exists_generator (ZMod p)ˣ _ _
  have hord : orderOf z = p - 1 := by
    rw [orderOf_eq_card_of_forall_mem_zpowers hz, Nat.card_eq_fintype_card,
      ZMod.card_units]
  have hcast : (((z : ZMod p).val : ℕ) : ZMod p) = (z : ZMod p) :=
    ZMod.natCast_rightInverse (z : ZMod p)
  set gn : ℕ := (z : ZMod p).val with hgn
  have hlt : gn < p := ZMod.val_lt (z : ZMod p)
  have hne0 : (z : ZMod p) ≠ 0 := Units.ne_zero z
  have hne0' : gn ≠ 0 := by
    intro h
    apply hne0
    rw [← hcast, h, Nat.cast_zero]
  have hne1 : gn ≠ 1 := by
    intro h
    have hz1 : z = 1 := by
      apply Units.ext
      rw [Units.val_one, ← hcast, h, Nat.cast_one]
    rw [hz1, orderOf_one] at hord
    omega
  have hge2 : 2 ≤ gn := by omega
  refine ⟨gn, hge2, hlt, ?_⟩
  have hpowz : ∀ m : ℕ, ((gn : ZMod p)) ^ m = ((z ^ m : (ZMod p)ˣ) : ZMod p) := by
    intro m
    rw [hcast, Units.val_pow_eq_pow_val]
  have hinj : ∀ i j, i < p - 1 → j < p - 1 →
      powmod gn p (i + 1) = powmod gn p (j + 1) → i = j := by
    intro i j hi hj heq
    rw [powmod_val p gn hp i, powmod_val p gn hp j] at heq
    have heq2 : ((gn : ZMod p)) ^ (i + 1) = ((gn : ZMod p)) ^ (j + 1) :=
      ZMod.val_injective p heq
    rw [hpowz, hpowz] at heq2
    have heq3 : z ^ (i + 1) = z ^ (j + 1) := Units.ext heq2
    have hmod : (i + 1) ≡ (j + 1) [MOD p - 1] := by
      rw [← hord]
      exact pow_eq_pow_iff_modEq.mp heq3
    rcases le_total i j with hle | hle
    · have hdvd : (p - 1) ∣ (j + 1) - (i + 1) :=
        (Nat.modEq_iff_dvd' (by omega)).mp hmod
      have := Nat.eq_zero_of_dvd_of_lt hdvd
      omega
    · have hdvd : (p - 1) ∣ (i + 1) - (j + 1) :=
        (Nat.modEq_iff_dvd' (by omega)).mp hmod.symm
      have := Nat.eq_zero_of_dvd_of_lt hdvd
      omega
  have hnodup : (seen_list p gn).Nodup := by
    apply List.Nodup.map_on _ (List.nodup_range (p - 1))
    intro x hx y hy hxy
    rw [List.mem_range] at hx hy
    exact hinj x y hx hy hxy
  rw [seen_count_eq_card, List.toFinset_card_of_nodup hnodup, seen_list_length]

/-- For an odd prime p, get_primitive_root finds a base in [2, p) whose
first p-1 powers cover all p-1 nonzero residues. -/
lemma prim_root_found (p : ℕ) (hp : p.Prime) (h2 : 2 < p) :
    2 ≤ get_primitive_root p ∧ get_primitive_root p < p ∧
      seen_count p (get_primitive_root p) = p - 1 := by
  obtain ⟨g, hg2, hgp, hgc⟩ := exists_seen_full p hp h2
  unfold get_primitive_root
  rw [if_neg (by omega : ¬ p = 2)]
  have hmem : g ∈ List.range' 2 (p - 2) := by
    rw [List.mem_range'_1]
    omega
  have hsome : ((List.range' 2 (p - 2)).find? (fun x => seen_count p x == p - 1)).isSome := by
    rw [List.find?_isSome]
    exact ⟨g, hmem, by simp [hgc]⟩
  obtain ⟨g0, hg0⟩ := Option.isSome_iff_exists.mp hsome
  rw [hg0]
  have hpred := List.find?_some hg0
  have hmem0 := List.mem_of_find?_eq_some hg0
  rw [List.mem_range'_1] at hmem0
  simp only [beq_iff_eq] at hpred
  show 2 ≤ g0 ∧ g0 < p ∧ seen_count p g0 = p - 1
  exact ⟨hmem0.1, by omega, hpred⟩

/-! ## The discrete-log dictionary -/

lemma indLoop_spec (p g : ℕ) : ∀ m n e, indLoop p g m n = some e →
    1 ≤ e ∧ e ≤ m ∧ powmod g p e = n := by
  intro m
  induction m with
  | zero =>
    intro n e h
    simp [indLoop] at h
  | succ i ih =>
    intro n e h
    unfold indLoop at h
    by_cases hcond : powmod g p (i + 1) = n
    · rw [if_pos hcond] at h
      have he : e = i + 1 := (Option.some_inj.mp h).symm
      subst he
      exact ⟨by omega, le_refl _, hcond⟩
    · rw [if_neg hcond] at h
      obtain ⟨h1, h2, h3⟩ := ih n e h
      exact ⟨h1, by omega, h3⟩

lemma indLoop_isSome (p g : ℕ) : ∀ m n,
    (∃ i, 1 ≤ i ∧ i ≤ m ∧ powmod g p i = n) → ∃ e, indLoop p g m n = some e := by
  intro m
  induction m with
  | zero =>
    intro n h
    obtain ⟨i, h1, h2, _⟩ := h
    omega
  | succ j ih =>
    intro n h
    unfold indLoop
    by_cases hcond : powmod g p (j + 1) = n
    · exact ⟨j + 1, by rw [if_pos hcond]⟩
    · rw [if_neg hcond]
      obtain ⟨i, h1, h2, h3⟩ := h
      have hij : i ≤ j := by
        rcases Nat.lt_or_ge i (j + 1) with hlt | hge
        · omega
        · exfalso
          have : i = j + 1 := by omega
          rw [this] at h3
          exact hcond h3
      exact ih n ⟨i, h1, hij, h3⟩

lemma fermat_mod (p g : ℕ) (hp : p.Prime) (hg1 : 1 ≤ g) (hgp : g < p) :
    g ^ (p - 1) % p = 1 := by
  haveI : Fact p.Prime := ⟨hp⟩
  haveI : Fact (1 < p) := ⟨hp.one_lt⟩
  have hgz : (g : ZMod p) ≠ 0 := by
    rw [Ne, ZMod.natCast_zmod_eq_zero_iff_dvd]
    intro hdvd
    have := Nat.le_of_dvd (by omega) hdvd
    omega
  have h := ZMod.pow_card_sub_one_eq_one hgz
  have hv : g ^ (p - 1) % p = ((g ^ (p - 1) : ℕ) : ZMod p).val :=
    (ZMod.val_natCast _).symm
  rw [hv, Nat.cast_pow, h, ZMod.val_one]

/-- For an odd prime p and its found primitive root, every nonzero residue
has a recorded discrete log: the one of 1 is 0 by convention, every other
one lies in [1, p-2] and exponentiates back to the residue. -/
lemma dlog_covers (p : ℕ) (hp : p.Prime) (h2 : 2 < p) :
    ∀ n, 1 ≤ n → n < p →
      ∃ e, dlog p (get_primitive_root p) n = some e ∧ e < p - 1 ∧
        (get_primitive_root p) ^ e % p = n ∧ (n = 1 → e = 0) := by
  obtain ⟨hg2, hgp, hgc⟩ := prim_root_found p hp h2
  set g := get_primitive_root p
  intro n hn1 hnp
  by_cases hone : n = 1
  · refine ⟨0, ?_, by omega, ?_, fun _ => rfl⟩
    · unfold dlog
      rw [if_pos hone]
    · rw [pow_zero, hone]
      exact Nat.one_mod_eq_one.mpr (by omega)
  · obtain ⟨i, hi, hfi⟩ := seen_list_surj p g hp (by omega) hgp hgc n hn1 hnp
    obtain ⟨e, he⟩ := indLoop_isSome p g (p - 1) n ⟨i + 1, by omega, by omega, hfi⟩
    obtain ⟨he1, he2, he3⟩ := indLoop_spec p g (p - 1) n e he
    have hepow : g ^ e % p = n := by
      rw [← powmod_eq g p hp.two_le]
      exact he3
    have helt : e < p - 1 := by
      rcases Nat.lt_or_ge e (p - 1) with h | h
      · exact h
      · exfalso
        have hee : e = p - 1 := by omega
        rw [hee, fermat_mod p g hp (by omega) hgp] at hepow
        exact hone hepow.symm
    refine ⟨e, ?_, helt, hepow, fun h1 => absurd h1 hone⟩
    unfold dlog
    rw [if_neg hone]
    exact he

/-! ## Table access -/

lemma generate_char_table_length (p k : ℕ) : (generate_char_table p k).length = p := by
  unfold generate_char_table
  rw [List.length_map, List.length_range]

lemma generate_char_table_getD (p k n : ℕ) (hn : n < p) :
    (generate_char_table p k).getD n 0 = char_entry p k n := by
  unfold generate_char_table
  exact getD_map_range _ _ _ _ hn

lemma generate_char_table_getLastD (p k : ℕ) (hpos : 0 < p) :
    (generate_char_table p k).getLastD 0 = char_entry p k (p - 1) := by
  rw [List.getLastD_eq_getLast?, List.getLast?_eq_getElem?]
  unfold generate_char_table
  rw [List.length_map, List.length_range, List.getElem?_map,
    List.getElem?_range (by omega : p - 1 < p)]
  rfl

/-! ## Character table: unit-circle values (C1) -/

lemma char_exp_abs (p k j : ℕ) :
    Complex.abs (Complex.exp (2 * (Real.pi : ℂ) * Complex.I * k / ((p - 1 : ℕ) : ℂ) * j)) = 1 := by
  have harg : 2 * (Real.pi : ℂ) * Complex.I * k / ((p - 1 : ℕ) : ℂ) * j =
      ((2 * Real.pi * k * j / ((p - 1 : ℕ) : ℝ) : ℝ) : ℂ) * Complex.I := by
    push_cast
    ring
  rw [harg]
  exact Complex.abs_exp_ofReal_mul_I _

/-- Claim C1: for a prime q and character index k in [1, q-1), the table
has length q, value 0 at residue 0, and at every residue n in [1, q-1)
the value exp((2 pi i k/(q-1)) e) where e is the discrete log of n to the
found primitive root (e = 0 for n = 1), a value of magnitude 1. -/
theorem C1_char_table (q k : ℕ) (hq : q.Prime) (hk1 : 1 ≤ k) (hk2 : k < q - 1) :
    (generate_char_table q k).getD 0 0 = 0 ∧
    (generate_char_table q k).length = q ∧
    (∀ n, 1 ≤ n → n < q - 1 →
      ∃ e, e < q - 1 ∧ (get_primitive_root q) ^ e % q = n ∧ (n = 1 → e = 0) ∧
        (generate_char_table q k).getD n 0 =
          Complex.exp (2 * (Real.pi : ℂ) * Complex.I * k / ((q - 1 : ℕ) : ℂ) * e) ∧
        Complex.abs ((generate_char_table q k).getD n 0) = 1) := by
  have h2 : 2 < q := by omega
  refine ⟨?_, generate_char_table_length q k, ?_⟩
  · rw [generate_char_table_getD q k 0 (by omega)]
    unfold char_entry
    rw [if_pos rfl]
  · intro n hn1 hn2
    obtain ⟨e, hdl, helt, hpow, hone⟩ := dlog_covers q hq h2 n hn1 (by omega)
    have hent : (generate_char_table q k).getD n 0 =
        Complex.exp (2 * (Real.pi : ℂ) * Complex.I * k / ((q - 1 : ℕ) : ℂ) * e) := by
      rw [generate_char_table_getD q k n (by omega)]
      unfold char_entry
      rw [if_neg (by omega : ¬ n = 0), hdl]
    refine ⟨e, helt, hpow, hone, hent, ?_⟩
    rw [hent]
    exact char_exp_abs q k e

/-- Witness for C1 at q = 7, k = 1: the entry at residue 0 is 0. -/
theorem C1_char_table_witness : (generate_char_table 7 1).getD 0 0 = 0 :=
  (C1_char_table 7 1 (by norm_num) (by norm_num) (by norm_num)).1

/-! ## Missing discrete-log entries (C5) -/

/-- Counterexample for C5: at the composite modulus 8 no primitive root
exists, residue 3 has no recorded discrete log, and yet the construction
completes, returning a full length-8 table in which the entry of 3 has
been silently set to the usable value 0 instead of aborting. -/
theorem C5_counterexample :
    dlog 8 (get_primitive_root 8) 3 = none ∧
    (generate_char_table 8 1).length = 8 ∧
    (generate_char_table 8 1).getD 3 0 = 0 := by
  refine ⟨by decide, generate_char_table_length 8 1, ?_⟩
  rw [generate_char_table_getD 8 1 3 (by norm_num)]
  unfold char_entry
  rw [if_neg (by norm_num : ¬ (3 : ℕ) = 0),
    (by decide : dlog 8 (get_primitive_root 8) 3 = none)]

/-- Claim C5 as amended: a residue n in [1, q) with no recorded discrete
log is not fatal; the construction silently records the table value 0 at n
and completes.  For a prime modulus such a residue never occurs. -/
theorem C5_amended (p k n : ℕ) (hn1 : 1 ≤ n) (hnp : n < p) :
    (dlog p (get_primitive_root p) n = none →
      (generate_char_table p k).getD n 0 = 0 ∧
        (generate_char_table p k).length = p) ∧
    (p.Prime → dlog p (get_primitive_root p) n ≠ none) := by
  constructor
  · intro h
    refine ⟨?_, generate_char_table_length p k⟩
    rw [generate_char_table_getD p k n hnp]
    unfold char_entry
    rw [if_neg (by omega : ¬ n = 0), h]
  · intro hp
    by_cases hone : n = 1
    · unfold dlog
      rw [if_pos hone]
      exact Option.some_ne_none 0
    · have h2 : 2 < p := by
        have := hp.two_le
        omega
      obtain ⟨e, hdl, _, _, _⟩ := dlog_covers p hp h2 n hn1 hnp
      rw [hdl]
      exact Option.some_ne_none e

/-- Witness for C5: at modulus 8 the missing entry of residue 3 is
silently given the value 0 in a completed table. -/
theorem C5_amended_witness :
    (generate_char_table 8 1).getD 3 0 = 0 ∧ (generate_char_table 8 1).length = 8 :=
  (C5_amended 8 1 3 (by norm_num) (by norm_num)).1 (by decide)

/-! ## Parity: the table value at q - 1 -/

lemma half_pow (p g : ℕ) (hp : p.Prime) (h2 : 2 < p) (hg2 : 2 ≤ g) (hgp : g < p)
    (hgc : seen_count p g = p - 1) :
    g ^ ((p - 1) / 2) % p = p - 1 := by
  haveI : Fact p.Prime := ⟨hp⟩
  haveI : Fact (1 < p) := ⟨hp.one_lt⟩
  have hodd : Odd p := hp.odd_of_ne_two (by omega)
  have heven : Even (p - 1) := Nat.Odd.sub_odd hodd odd_one
  obtain ⟨m, hm⟩ := heven
  have hsq : ((g : ZMod p) ^ ((p - 1) / 2)) * ((g : ZMod p) ^ ((p - 1) / 2)) = 1 := by
    rw [← pow_add]
    have hadd : (p - 1) / 2 + (p - 1) / 2 = p - 1 := by omega
    rw [hadd]
    apply ZMod.pow_card_sub_one_eq_one
    rw [Ne, ZMod.natCast_zmod_eq_zero_iff_dvd]
    intro hdvd
    have := Nat.le_of_dvd (by omega) hdvd
    omega
  have hval : g ^ ((p - 1) / 2) % p = ((g : ZMod p) ^ ((p - 1) / 2)).val := by
    rw [← Nat.cast_pow, ZMod.val_natCast]
  rcases mul_self_eq_one_iff.mp hsq with h1 | hneg1
  · exfalso
    have hv1 : g ^ ((p - 1) / 2) % p = 1 := by
      rw [hval, h1, ZMod.val_one]
    have hferm : g ^ (p - 1) % p = 1 := fermat_mod p g hp (by omega) hgp
    have hpoweq : powmod g p ((p - 1) / 2 - 1 + 1) = powmod g p (p - 1 - 1 + 1) := by
      have e1 : (p - 1) / 2 - 1 + 1 = (p - 1) / 2 := by omega
      have e2 : p - 1 - 1 + 1 = p - 1 := by omega
      rw [e1, e2, powmod_eq g p hp.two_le, powmod_eq g p hp.two_le, hv1, hferm]
    have hinj := seen_list_inj p g hgc ((p - 1) / 2 - 1) (p - 1 - 1)
      (by omega) (by omega) hpoweq
    omega
  · have hneg : ((p - 1 : ℕ) : ZMod p) = -1 := by
      have hself : ((p : ℕ) : ZMod p) = 0 := ZMod.natCast_self p
      rw [Nat.cast_sub (by omega : 1 ≤ p), Nat.cast_one, hself]
      ring
    rw [hval, hneg1, ← hneg, ZMod.val_natCast, Nat.mod_eq_of_lt (by omega)]

lemma dlog_neg_one (p : ℕ) (hp : p.Prime) (h2 : 2 < p) :
    dlog p (get_primitive_root p) (p - 1) = some ((p - 1) / 2) := by
  obtain ⟨hg2, hgp, hgc⟩ := prim_root_found p hp h2
  set g := get_primitive_root p
  have hodd : Odd p := hp.odd_of_ne_two (by omega)
  have heven : Even (p - 1) := Nat.Odd.sub_odd hodd odd_one
  obtain ⟨m, hm⟩ := heven
  unfold dlog
  rw [if_neg (by omega : ¬ p - 1 = 1)]
  have hhalf : powmod g p ((p - 1) / 2) = p - 1 := by
    rw [powmod_eq g p hp.two_le]
    exact half_pow p g hp h2 hg2 hgp hgc
  obtain ⟨e, he⟩ := indLoop_isSome p g (p - 1) (p - 1)
    ⟨(p - 1) / 2, by omega, by omega, hhalf⟩
  obtain ⟨he1, he2, he3⟩ := indLoop_spec p g (p - 1) (p - 1) e he
  have helt : e < p - 1 := by
    rcases Nat.lt_or_ge e (p - 1) with h | h
    · exact h
    · exfalso
      have hee : e = p - 1 := by omega
      rw [hee, powmod_eq g p hp.two_le, fermat_mod p g hp (by omega) hgp] at he3
      omega
  have hpoweq : powmod g p (e - 1 + 1) = powmod g p ((p - 1) / 2 - 1 + 1) := by
    have e1 : e - 1 + 1 = e := by omega
    have e2 : (p - 1) / 2 - 1 + 1 = (p - 1) / 2 := by omega
    rw [e1, e2, he3, hhalf]
  have hinj := seen_list_inj p g hgc (e - 1) ((p - 1) / 2 - 1)
    (by omega) (by omega) hpoweq
  have hee : e = (p - 1) / 2 := by omega
  rw [he, hee]

lemma char_table_neg_one (q k : ℕ) (hq : q.Prime) (h2 : 2 < q) :
    char_entry q k (q - 1) = (-1 : ℂ) ^ k := by
  have hdl := dlog_neg_one q hq h2
  unfold char_entry
  rw [if_neg (by omega : ¬ q - 1 = 0), hdl]
  show Complex.exp (2 * (Real.pi : ℂ) * Complex.I * k / ((q - 1 : ℕ) : ℂ) *
      (((q - 1) / 2 : ℕ) : ℂ)) = (-1 : ℂ) ^ k
  have hodd : Odd q := hq.odd_of_ne_two (by omega)
  have heven : Even (q - 1) := Nat.Odd.sub_odd hodd odd_one
  obtain ⟨m, hm⟩ := heven
  have hm1 : 1 ≤ m := by omega
  have hcast : ((q - 1 : ℕ) : ℂ) = 2 * (m : ℂ) := by
    rw [hm]
    push_cast
    ring
  have hhalfm : (((q - 1) / 2 : ℕ) : ℂ) = (m : ℂ) := by
    have hdiv : (q - 1) / 2 = m := by omega
    rw [hdiv]
  have hmne : (m : ℂ) ≠ 0 := Nat.cast_ne_zero.mpr (by omega)
  rw [hcast, hhalfm]
  have harg : 2 * (Real.pi : ℂ) * Complex.I * k / (2 * (m : ℂ)) * m =
      (k : ℂ) * ((Real.pi : ℂ) * Complex.I) := by
    field_simp
    ring
  rw [harg, Complex.exp_nat_mul, Complex.exp_pi_mul_I]

lemma check_parity_char (q k : ℕ) (hq : q.Prime) (h2 : 2 < q) :
    check_parity (generate_char_table q k) = if Even k then 1 else -1 := by
  unfold check_parity
  rw [generate_char_table_getLastD q k (by omega), char_table_neg_one q k hq h2]
  have hre : ((-1 : ℂ) ^ k).re = (-1 : ℝ) ^ k := by
    have hc : ((-1 : ℂ) ^ k) = (((-1 : ℝ) ^ k : ℝ) : ℂ) := by
      push_cast
      ring
    rw [hc, Complex.ofReal_re]
  rw [hre]
  by_cases hk : Even k
  · rw [if_pos hk, hk.neg_one_pow, if_pos (by norm_num : (0 : ℝ) < 1)]
  · rw [if_neg hk, (Nat.not_even_iff_odd.mp hk).neg_one_pow,
      if_neg (by norm_num : ¬ (0 : ℝ) < -1)]

/-! ## Parity buckets -/

lemma check_parity_cases (t : List ℂ) :
    check_parity t = 1 ∨ check_parity t = -1 := by
  unfold check_parity
  by_cases h : 0 < (t.getLastD 0).re
  · left
    rw [if_pos h]
  · right
    rw [if_neg h]

lemma mem_chimera_index_range (q k : ℕ) :
    k ∈ chimera_index_range q ↔ 1 ≤ k ∧ k ≤ q - 1 ∧ 2 ≤ q := by
  unfold chimera_index_range
  rw [List.mem_range'_1]
  omega

lemma mem_evens_bucket (q k : ℕ) :
    k ∈ evens_bucket q ↔
      k ∈ chimera_index_range q ∧ check_parity (generate_char_table q k) = 1 := by
  unfold evens_bucket
  rw [List.mem_filter, decide_eq_true_eq]

lemma mem_odds_bucket (q k : ℕ) :
    k ∈ odds_bucket q ↔
      k ∈ chimera_index_range q ∧ ¬ check_parity (generate_char_table q k) = 1 := by
  unfold odds_bucket
  rw [List.mem_filter, decide_eq_true_eq]

lemma mem_evens_bucket_of_even (q k : ℕ) (hq : q.Prime) (h2 : 2 < q)
    (hk1 : 1 ≤ k) (hk2 : k ≤ q - 1) (hke : Even k) : k ∈ evens_bucket q := by
  rw [mem_evens_bucket, mem_chimera_index_range]
  refine ⟨by omega, ?_⟩
  rw [check_parity_char q k hq h2, if_pos hke]

lemma length_filter_even (m : ℕ) :
    ((List.range' 1 m).filter (fun k => decide (Even k))).length = m / 2 := by
  induction m with
  | zero => rfl
  | succ n ih =>
    have he : 1 + 1 * n = n + 1 := by ring
    rw [List.range'_concat, he, List.filter_append, List.length_append, ih]
    by_cases h : Even (n + 1)
    · have hs : (List.filter (fun k => decide (Even k)) [n + 1]).length = 1 := by
        simp only [List.filter_cons, List.filter_nil, decide_eq_true_eq]
        rw [if_pos h]
        rfl
      rw [hs]
      have hm : (n + 1) % 2 = 0 := Nat.even_iff.mp h
      omega
    · have hs : (List.filter (fun k => decide (Even k)) [n + 1]).length = 0 := by
        simp only [List.filter_cons, List.filter_nil, decide_eq_true_eq]
        rw [if_neg h]
        rfl
      rw [hs]
      have hm : (n + 1) % 2 = 1 := Nat.odd_iff.mp (Nat.not_even_iff_odd.mp h)
      omega

lemma length_filter_odd (m : ℕ) :
    ((List.range' 1 m).filter (fun k => decide (¬ Even k))).length = (m + 1) / 2 := by
  induction m with
  | zero => rfl
  | succ n ih =>
    have he : 1 + 1 * n = n + 1 := by ring
    rw [List.range'_concat, he, List.filter_append, List.length_append, ih]
    by_cases h : Even (n + 1)
    · have hs : (List.filter (fun k => decide (¬ Even k)) [n + 1]).length = 0 := by
        simp only [List.filter_cons, List.filter_nil, decide_eq_true_eq]
        rw [if_neg (fun c => c h)]
        rfl
      rw [hs]
      have hm : (n + 1) % 2 = 0 := Nat.even_iff.mp h
      omega
    · have hs : (List.filter (fun k => decide (¬ Even k)) [n + 1]).length = 1 := by
        simp only [List.filter_cons, List.filter_nil, decide_eq_true_eq]
        rw [if_pos h]
        rfl
      rw [hs]
      have hm : (n + 1) % 2 = 1 := Nat.odd_iff.mp (Nat.not_even_iff_odd.mp h)
      omega

/-- Claim C10: for an odd prime q the table value at residue q-1 is
(-1)^k, check_parity classifies the k-th character as even exactly for
even k and odd exactly for odd k, and the two buckets are exactly the
even and the odd indices of [1, q-1], each of size (q-1)/2. -/
theorem C10_parity_buckets (q : ℕ) (hq : q.Prime) (h2 : 2 < q) :
    (∀ k, (generate_char_table q k).getD (q - 1) 0 = (-1 : ℂ) ^ k ∧
      (check_parity (generate_char_table q k) = 1 ↔ Even k) ∧
      (check_parity (generate_char_table q k) = -1 ↔ Odd k)) ∧
    (∀ k, k ∈ evens_bucket q ↔ (1 ≤ k ∧ k ≤ q - 1 ∧ Even k)) ∧
    (∀ k, k ∈ odds_bucket q ↔ (1 ≤ k ∧ k ≤ q - 1 ∧ Odd k)) ∧
    (evens_bucket q).length = (q - 1) / 2 ∧
    (odds_bucket q).length = (q - 1) / 2 := by
  have hval : ∀ k, (generate_char_table q k).getD (q - 1) 0 = (-1 : ℂ) ^ k := by
    intro k
    rw [generate_char_table_getD q k (q - 1) (by omega)]
    exact char_table_neg_one q k hq h2
  have hiff : ∀ k, check_parity (generate_char_table q k) = 1 ↔ Even k := by
    intro k
    rw [check_parity_char q k hq h2]
    by_cases hk : Even k
    · rw [if_pos hk]
      simp [hk]
    · rw [if_neg hk]
      constructor
      · intro h
        exact absurd h (by decide)
      · intro h
        exact absurd h hk
  have hodd : Odd q := hq.odd_of_ne_two (by omega)
  refine ⟨?_, ?_, ?_, ?_, ?_⟩
  · intro k
    refine ⟨hval k, hiff k, ?_⟩
    rw [check_parity_char q k hq h2]
    by_cases hk : Even k
    · rw [if_pos hk]
      constructor
      · intro h
        exact absurd h (by decide)
      · intro h
        exact absurd hk (Nat.not_even_iff_odd.mpr h)
    · rw [if_neg hk]
      exact ⟨fun _ => Nat.not_even_iff_odd.mp hk, fun _ => rfl⟩
  · intro k
    rw [mem_evens_bucket, mem_chimera_index_range, hiff k]
    constructor
    · rintro ⟨⟨a, b, _⟩, c⟩
      exact ⟨a, b, c⟩
    · rintro ⟨a, b, c⟩
      exact ⟨⟨a, b, by omega⟩, c⟩
  · intro k
    rw [mem_odds_bucket, mem_chimera_index_range, hiff k]
    constructor
    · rintro ⟨⟨a, b, _⟩, c⟩
      exact ⟨a, b, Nat.not_even_iff_odd.mp c⟩
    · rintro ⟨a, b, c⟩
      exact ⟨⟨a, b, by omega⟩, Nat.not_even_iff_odd.mpr c⟩
  · unfold evens_bucket chimera_index_range
    rw [List.filter_congr (fun k _ => decide_eq_decide.mpr (hiff k)),
      length_filter_even]
  · unfold odds_bucket chimera_index_range
    rw [List.filter_congr (fun k _ => decide_eq_decide.mpr (not_congr (hiff k))),
      length_filter_odd]
    rw [Nat.odd_iff] at hodd
    omega

/-- Witness for C10 at q = 7: the even bucket has (7-1)/2 members. -/
theorem C10_parity_buckets_witness : (evens_bucket 7).length = (7 - 1) / 2 :=
  (C10_parity_buckets 7 (by norm_num) (by norm_num)).2.2.2.1

/-! ## Chimera Constructor: index ranges and the shift (C6, C7) -/

/-- Counterexample for C6: for q = 7 the index 6 = q - 1 is among the
indices the constructor passes to the character factory, and it lands in
the even bucket from which constituents are drawn, yet 6 does not lie in
[1, q-1) since 6 < 6 fails. -/
theorem C6_counterexample :
    6 ∈ chimera_index_range 7 ∧ 6 ∈ evens_bucket 7 ∧ ¬ (6 < 7 - 1) := by
  refine ⟨by decide, ?_, by omega⟩
  exact mem_evens_bucket_of_even 7 6 (by norm_num) (by norm_num) (by norm_num)
    (by norm_num) (by decide)

/-- Claim C6 as amended: every character index the constructor passes to
the factory, and hence every bucket member and both constituent indices of
a constructed chimera, lies in [1, q-1], the top index q-1 included. -/
theorem C6_amended (q : ℕ) :
    (∀ k ∈ chimera_index_range q, 1 ≤ k ∧ k ≤ q - 1) ∧
    (∀ k ∈ evens_bucket q, 1 ≤ k ∧ k ≤ q - 1) ∧
    (∀ k ∈ odds_bucket q, 1 ≤ k ∧ k ≤ q - 1) := by
  refine ⟨?_, ?_, ?_⟩
  · intro k hk
    rw [mem_chimera_index_range] at hk
    exact ⟨hk.1, hk.2.1⟩
  · intro k hk
    rw [mem_evens_bucket, mem_chimera_index_range] at hk
    exact ⟨hk.1.1, hk.1.2.1⟩
  · intro k hk
    rw [mem_odds_bucket, mem_chimera_index_range] at hk
    exact ⟨hk.1.1, hk.1.2.1⟩

/-- Witness for C6: the index 6 passed for q = 7 satisfies the amended
bound 1 <= 6 <= 7 - 1. -/
theorem C6_amended_witness : 1 ≤ 6 ∧ 6 ≤ 7 - 1 :=
  (C6_amended 7).1 6 (by decide)

/-- Claim C7: a chimera built from two members of one parity bucket has
distinct constituent indices of equal parity, its shift a is 0 exactly
when that parity is even and 1 exactly when it is odd, and the same a
results whichever constituent table is inspected. -/
theorem C7_shift (q k1 k2 : ℕ) (ks : List ℕ)
    (hks : ks = evens_bucket q ∨ ks = odds_bucket q)
    (h1 : k1 ∈ ks) (h2 : k2 ∈ ks) (hne : k1 ≠ k2) :
    (mkSyntheticZeta q k1 (generate_char_table q k1) k2
        (generate_char_table q k2)).idx_a ≠
      (mkSyntheticZeta q k1 (generate_char_table q k1) k2
        (generate_char_table q k2)).idx_b ∧
    check_parity (generate_char_table q k1) =
      check_parity (generate_char_table q k2) ∧
    (check_parity (generate_char_table q k1) = 1 →
      (mkSyntheticZeta q k1 (generate_char_table q k1) k2
        (generate_char_table q k2)).a = 0) ∧
    (check_parity (generate_char_table q k1) = -1 →
      (mkSyntheticZeta q k1 (generate_char_table q k1) k2
        (generate_char_table q k2)).a = 1) ∧
    (mkSyntheticZeta q k1 (generate_char_table q k1) k2
        (generate_char_table q k2)).a =
      (if check_parity (generate_char_table q k2) = 1 then 0 else 1) := by
  have hpar : check_parity (generate_char_table q k1) =
      check_parity (generate_char_table q k2) := by
    rcases hks with h | h
    · subst h
      rw [mem_evens_bucket] at h1 h2
      rw [h1.2, h2.2]
    · subst h
      rw [mem_odds_bucket] at h1 h2
      rcases check_parity_cases (generate_char_table q k1) with c1 | c1
      · exact absurd c1 h1.2
      · rcases check_parity_cases (generate_char_table q k2) with c2 | c2
        · exact absurd c2 h2.2
        · rw [c1, c2]
  refine ⟨hne, hpar, ?_, ?_, ?_⟩
  · intro hp
    show (if check_parity (generate_char_table q k1) = 1 then 0 else 1) = 0
    rw [if_pos hp]
  · intro hp
    show (if check_parity (generate_char_table q k1) = 1 then 0 else 1) = 1
    rw [if_neg (by rw [hp]; decide)]
  · show (if check_parity (generate_char_table q k1) = 1 then 0 else 1) = _
    rw [hpar]

/-- Witness for C7: the even-bucket members 2 and 4 for q = 7 give a
chimera whose two tables have equal parity. -/
theorem C7_shift_witness :
    check_parity (generate_char_table 7 2) = check_parity (generate_char_table 7 4) :=
  (C7_shift 7 2 4 (evens_bucket 7) (Or.inl rfl)
    (mem_evens_bucket_of_even 7 2 (by norm_num) (by norm_num) (by norm_num)
      (by norm_num) (by decide))
    (mem_evens_bucket_of_even 7 4 (by norm_num) (by norm_num) (by norm_num)
      (by norm_num) (by decide))
    (by norm_num)).2.1
